import Mathlib

/-!
Verification of the Monte Carlo option-pricing engine.

Shallow embedding of the numeric core of `MonteCarlo.py`:

* `monte_carlo_option_price` (source lines 20-33): draws `N` standard-normal
  samples `Z`, maps them through the closed-form GBM terminal-price formula,
  computes the call/put payoff, and discounts the sample mean.  The random
  draws are made an explicit argument `Z : List ℝ`; `num_paths` is `Z.length`.
* the multi-step path-simulation loop (source lines 122-129): a grid of
  `num_steps + 1` rows and `num_sample_paths` columns built by repeated
  one-step GBM updates, with the per-step draws an explicit `Z : ℕ → ℕ → ℝ`.
* `reset_parameters` (source lines 8-15): the session-state reset callback,
  with `st.session_state` modelled as a partial map from keys to values.

All arithmetic is exact real arithmetic (`ℝ`).
-/

noncomputable section

/-- GBM terminal price for a single standard-normal draw `z`
(source line 23): `S * exp((r - 0.5 * sigma**2) * T + sigma * sqrt(T) * z)`. -/
def terminalPrice (S T r sigma : ℝ) (z : ℝ) : ℝ :=
  S * Real.exp ((r - 0.5 * sigma ^ 2) * T + sigma * Real.sqrt T * z)

/-- Per-sample payoff (source lines 26-29): `max(S_T - K, 0)` when
`option_type == 'call'`, otherwise `max(K - S_T, 0)`. -/
def payoff (K : ℝ) (option_type : String) (s_t : ℝ) : ℝ :=
  if option_type = "call" then max (s_t - K) 0 else max (K - s_t) 0

/-- Embedding of `np.mean`: the sum of the entries divided by the length. -/
def npMean (xs : List ℝ) : ℝ := xs.sum / xs.length

/-- Embedding of `monte_carlo_option_price` (source lines 20-33), with the
vector of standard-normal draws passed explicitly.  Returns the pair
`(price, S_T)`. -/
def monte_carlo_option_price (S K T r sigma : ℝ) (option_type : String)
    (Z : List ℝ) : ℝ × List ℝ :=
  let S_T := Z.map (terminalPrice S T r sigma)
  let p := S_T.map (payoff K option_type)
  (Real.exp (-r * T) * npMean p, S_T)

/-- One step of the path-simulation loop (source line 129):
`prev * exp((r - 0.5 * sigma**2) * dt + sigma * sqrt(dt) * z)`. -/
def gbmStep (r sigma dt prev z : ℝ) : ℝ :=
  prev * Real.exp ((r - 0.5 * sigma ^ 2) * dt + sigma * Real.sqrt dt * z)

/-- Entry `(i, j)` of the simulated path grid: row 0 is the spot price `S`
(source line 126), and row `i + 1` applies one GBM step to row `i` with the
fresh draw `Z (i + 1) j` (source lines 127-129). -/
def pathEntry (S r sigma dt : ℝ) (Z : ℕ → ℕ → ℝ) : ℕ → ℕ → ℝ
  | 0, _ => S
  | i + 1, j => gbmStep r sigma dt (pathEntry S r sigma dt Z i j) (Z (i + 1) j)

/-- The full path grid of the sample-path loop (source lines 122-129), as a
list of rows: `num_steps + 1` rows of `num_sample_paths` columns, with
`dt = T / num_steps`. -/
def paths (S T r sigma : ℝ) (num_steps num_sample_paths : ℕ)
    (Z : ℕ → ℕ → ℝ) : List (List ℝ) :=
  (List.range (num_steps + 1)).map fun i =>
    (List.range num_sample_paths).map fun j =>
      pathEntry S r sigma (T / (num_steps : ℝ)) Z i j

/-- Total accessor for a 2-D grid: entry `(i, j)`, defaulting to `0` out of
range. -/
def gridEntry (g : List (List ℝ)) (i j : ℕ) : ℝ := (g.getD i []).getD j 0

/-- A value stored in the Streamlit session state: a float, a string or an
integer. -/
inductive SessionValue
  | real (x : ℝ)
  | str (s : String)
  | nat (n : ℕ)

/-- The Streamlit session state, as a partial map from keys to values. -/
def SessionState := String → Option SessionValue

/-- Assignment of one session-state key, as in the source's
session-state writes. -/
def SessionState.set (st : SessionState) (k : String) (v : SessionValue) :
    SessionState :=
  fun q => if q = k then some v else st q

/-- Embedding of `reset_parameters` (source lines 8-15): writes the seven
literal defaults into the session state, in source order. -/
def reset_parameters (st : SessionState) : SessionState :=
  ((((((st.set "S_slider" (.real 100.0)).set "K_slider"
    (.real 100.0)).set "T_slider" (.real 1.0)).set "r_slider"
    (.real 0.05)).set "sigma_slider" (.real 0.2)).set "option_type_radio"
    (.str "call")).set "num_paths_slider" (.nat 10000)

/-! ## Helper lemmas -/

lemma payoff_call (K x : ℝ) : payoff K "call" x = max (x - K) 0 := by
  simp [payoff]

lemma payoff_put (K x : ℝ) : payoff K "put" x = max (K - x) 0 := by
  simp [payoff]

lemma payoff_nonneg (K : ℝ) (o : String) (x : ℝ) : 0 ≤ payoff K o x := by
  unfold payoff; split <;> exact le_max_right _ _

lemma pathEntry_pos (S r sigma dt : ℝ) (Z : ℕ → ℕ → ℝ) (hS : 0 < S) :
    ∀ i j, 0 < pathEntry S r sigma dt Z i j := by
  intro i j
  induction i with
  | zero => simpa [pathEntry] using hS
  | succ k ih => exact mul_pos ih (Real.exp_pos _)

lemma sum_payoff_sub (K : ℝ) (l : List ℝ) :
    (l.map fun x => max (x - K) 0).sum - (l.map fun x => max (K - x) 0).sum
      = l.sum - l.length * K := by
  induction l with
  | nil => simp
  | cons a t ih =>
    simp only [List.map_cons, List.sum_cons, List.length_cons]
    have h : max (a - K) 0 - max (K - a) 0 = a - K := by
      rcases le_total a K with h | h
      · rw [max_eq_right (by linarith), max_eq_left (by linarith)]; ring
      · rw [max_eq_left (by linarith), max_eq_right (by linarith)]; ring
    push_cast
    linarith

lemma sum_map_le_sum_map (f g : ℝ → ℝ) (l : List ℝ)
    (h : ∀ z ∈ l, f z ≤ g z) : (l.map f).sum ≤ (l.map g).sum := by
  induction l with
  | nil => simp
  | cons a t ih =>
    simp only [List.map_cons, List.sum_cons]
    have ha := h a (List.mem_cons_self a t)
    have ht := ih fun z hz => h z (List.mem_cons_of_mem a hz)
    linarith

/-! ## Claims -/

/-- C1: for every parameters, option kind and sample vector `Z` of `N ≥ 1`
standard-normal draws, `monte_carlo_option_price` returns the pair
`(estimate, terminal_samples)` where the terminal samples are exactly
`S * exp((r - 0.5*sigma^2)*T + sigma*sqrt(T)*Z_i)` for each `i` (hence `N`
entries), and the estimate is `exp(-r*T)` times the arithmetic mean of the
payoffs `max(S_T_i - K, 0)` for a call and `max(K - S_T_i, 0)` for a put. -/
theorem mc_price_formula (S K T r sigma : ℝ) (option_type : String)
    (Z : List ℝ) (hN : 1 ≤ Z.length) :
    ((monte_carlo_option_price S K T r sigma option_type Z).2.length =
        Z.length ∧
      (monte_carlo_option_price S K T r sigma option_type Z).2 =
        Z.map fun z =>
          S * Real.exp ((r - 0.5 * sigma ^ 2) * T + sigma * Real.sqrt T * z)) ∧
    (option_type = "call" →
      (monte_carlo_option_price S K T r sigma option_type Z).1 =
        Real.exp (-r * T) *
          ((Z.map fun z =>
              max (S * Real.exp ((r - 0.5 * sigma ^ 2) * T +
                sigma * Real.sqrt T * z) - K) 0).sum / Z.length)) ∧
    (option_type = "put" →
      (monte_carlo_option_price S K T r sigma option_type Z).1 =
        Real.exp (-r * T) *
          ((Z.map fun z =>
              max (K - S * Real.exp ((r - 0.5 * sigma ^ 2) * T +
                sigma * Real.sqrt T * z)) 0).sum / Z.length)) := by
  refine ⟨⟨by simp [monte_carlo_option_price],
    by simp [monte_carlo_option_price, terminalPrice]⟩, ?_, ?_⟩
  · rintro rfl
    have hc : (payoff K "call" ∘ terminalPrice S T r sigma) = fun z =>
        max (S * Real.exp ((r - 0.5 * sigma ^ 2) * T +
          sigma * Real.sqrt T * z) - K) 0 :=
      funext fun z => by simp [Function.comp, payoff_call, terminalPrice]
    simp only [monte_carlo_option_price, npMean, List.map_map,
      List.length_map, hc]
  · rintro rfl
    have hp : (payoff K "put" ∘ terminalPrice S T r sigma) = fun z =>
        max (K - S * Real.exp ((r - 0.5 * sigma ^ 2) * T +
          sigma * Real.sqrt T * z)) 0 :=
      funext fun z => by simp [Function.comp, payoff_put, terminalPrice]
    simp only [monte_carlo_option_price, npMean, List.map_map,
      List.length_map, hp]

theorem mc_price_formula_witness :
    (monte_carlo_option_price 100 100 1 0.05 0.2 "call" [0]).2.length =
      [(0 : ℝ)].length :=
  (mc_price_formula 100 100 1 0.05 0.2 "call" [0] (by simp)).1.1

/-- C2: for every real parameters, option kind and sample vector, the price
estimate returned by `monte_carlo_option_price` is non-negative: each payoff
is `max(..., 0) ≥ 0`, the mean of payoffs is `≥ 0`, and the discount factor
`exp(-r*T)` is positive. -/
theorem mc_price_nonneg (S K T r sigma : ℝ) (option_type : String)
    (Z : List ℝ) :
    0 ≤ (monte_carlo_option_price S K T r sigma option_type Z).1 := by
  unfold monte_carlo_option_price npMean
  refine mul_nonneg (Real.exp_nonneg _) (div_nonneg ?_ (Nat.cast_nonneg _))
  exact List.sum_nonneg (by
    intro x hx
    rcases List.mem_map.mp hx with ⟨y, _, rfl⟩
    exact payoff_nonneg _ _ _)

/-- C3: deterministic put-call parity: with the same draw vector `Z` handed
to both runs, the call estimate minus the put estimate equals `exp(-r*T)`
times `mean(S_T) - K`, where `S_T` is the common terminal-price sample
(both runs return the same sample). -/
theorem mc_put_call_parity (S K T r sigma : ℝ) (Z : List ℝ)
    (hN : 1 ≤ Z.length) :
    (monte_carlo_option_price S K T r sigma "call" Z).2 =
        (monte_carlo_option_price S K T r sigma "put" Z).2 ∧
    (monte_carlo_option_price S K T r sigma "call" Z).1 -
        (monte_carlo_option_price S K T r sigma "put" Z).1 =
      Real.exp (-r * T) *
        (npMean (monte_carlo_option_price S K T r sigma "call" Z).2 - K) := by
  have hn : (0 : ℝ) < Z.length := by exact_mod_cast hN
  constructor
  · rfl
  · have hpc : payoff K "call" = fun x => max (x - K) 0 :=
      funext fun x => payoff_call K x
    have hpp : payoff K "put" = fun x => max (K - x) 0 :=
      funext fun x => payoff_put K x
    set l := Z.map (terminalPrice S T r sigma) with hl
    have hlen : (l.length : ℝ) = (Z.length : ℝ) := by simp [hl]
    have h1 : (monte_carlo_option_price S K T r sigma "call" Z).1 =
        Real.exp (-r * T) * ((l.map fun x => max (x - K) 0).sum / l.length) := by
      rw [monte_carlo_option_price]
      simp only [← hl, hpc, npMean, List.length_map]
    have h2 : (monte_carlo_option_price S K T r sigma "put" Z).1 =
        Real.exp (-r * T) * ((l.map fun x => max (K - x) 0).sum / l.length) := by
      rw [monte_carlo_option_price]
      simp only [← hl, hpp, npMean, List.length_map]
    have h3 : (monte_carlo_option_price S K T r sigma "call" Z).2 = l := rfl
    have hne : (l.length : ℝ) ≠ 0 := by rw [hlen]; exact ne_of_gt hn
    rw [h1, h2, h3, ← mul_sub, ← sub_div, sum_payoff_sub K l, npMean, sub_div,
      mul_div_cancel_left₀ K hne]

theorem mc_put_call_parity_witness :
    (monte_carlo_option_price 100 100 1 0.05 0.2 "call" [0]).2 =
        (monte_carlo_option_price 100 100 1 0.05 0.2 "put" [0]).2 :=
  (mc_put_call_parity 100 100 1 0.05 0.2 [0] (by simp)).1

/-- C7: `monte_carlo_option_price` performs no input validation and has no
error branch: for every real inputs, including non-positive `S`, `K`, `T` or
`sigma`, it is total and returns the numeric pair given by its defining
formula, rather than signalling an invalid-parameter condition. -/
theorem mc_total (S K T r sigma : ℝ) (option_type : String) (Z : List ℝ) :
    monte_carlo_option_price S K T r sigma option_type Z =
      (Real.exp (-r * T) *
          (((Z.map (terminalPrice S T r sigma)).map
              (payoff K option_type)).sum / (Z.length : ℝ)),
        Z.map (terminalPrice S T r sigma)) := by
  simp [monte_carlo_option_price, npMean]

/-- C9: every `option_type` other than the exact string `"call"` (for
instance `"Call"`) silently selects the put payoff: the result coincides with
the `"put"` run on the same draws, and no error is raised. -/
theorem mc_non_call_is_put (S K T r sigma : ℝ) (option_type : String)
    (hopt : option_type ≠ "call") (Z : List ℝ) :
    monte_carlo_option_price S K T r sigma option_type Z =
      monte_carlo_option_price S K T r sigma "put" Z := by
  have hp : payoff K option_type = payoff K "put" := by
    funext x
    simp [payoff, hopt]
  simp [monte_carlo_option_price, hp]

theorem mc_non_call_is_put_witness :
    monte_carlo_option_price 100 100 1 0.05 0.2 "Call" [0, 1] =
      monte_carlo_option_price 100 100 1 0.05 0.2 "put" [0, 1] :=
  mc_non_call_is_put 100 100 1 0.05 0.2 "Call" (by decide) [0, 1]

lemma paths_gridEntry (S T r sigma : ℝ) (num_steps num_sample_paths : ℕ)
    (Z : ℕ → ℕ → ℝ) (i j : ℕ) (hi : i ≤ num_steps) (hj : j < num_sample_paths) :
    gridEntry (paths S T r sigma num_steps num_sample_paths Z) i j =
      pathEntry S r sigma (T / (num_steps : ℝ)) Z i j := by
  unfold gridEntry paths
  simp only [List.getD_eq_getElem?_getD, List.getElem?_map]
  rw [List.getElem?_range (show i < num_steps + 1 by omega)]
  simp only [Option.map_some', Option.getD_some, List.getElem?_map]
  rw [List.getElem?_range hj]
  simp

/-- C4: for every `steps ≥ 1` and `path_count ≥ 1`, the path grid has exactly
`steps + 1` rows, each row has exactly `path_count` entries, and row 0 equals
the spot price `S` in every column. -/
theorem paths_shape (S T r sigma : ℝ) (num_steps num_sample_paths : ℕ)
    (h1 : 1 ≤ num_steps) (h2 : 1 ≤ num_sample_paths) (Z : ℕ → ℕ → ℝ) :
    (paths S T r sigma num_steps num_sample_paths Z).length = num_steps + 1 ∧
    (∀ row ∈ paths S T r sigma num_steps num_sample_paths Z,
        row.length = num_sample_paths) ∧
    (∀ j, j < num_sample_paths →
        gridEntry (paths S T r sigma num_steps num_sample_paths Z) 0 j = S) := by
  refine ⟨by simp [paths], ?_, ?_⟩
  · intro row hrow
    rcases List.mem_map.mp hrow with ⟨i, _, rfl⟩
    simp
  · intro j hj
    rw [paths_gridEntry S T r sigma num_steps num_sample_paths Z 0 j
      (Nat.zero_le _) hj]
    rfl

theorem paths_shape_witness :
    (paths 100 1 0.05 0.2 100 5 (fun _ _ => 0)).length = 100 + 1 :=
  (paths_shape 100 1 0.05 0.2 100 5 (by norm_num) (by norm_num)
    (fun _ _ => 0)).1

/-- C5: for every row `1 ≤ i ≤ steps` and column `j < path_count`, the grid
satisfies the one-step GBM recurrence
`paths[i][j] = paths[i-1][j] * exp((r - 0.5*sigma^2)*dt + sigma*sqrt(dt)*Z i j)`
with `dt = T / steps`, where `Z i j` is the fresh draw for step `i`,
column `j`. -/
theorem paths_recurrence (S T r sigma : ℝ) (num_steps num_sample_paths : ℕ)
    (Z : ℕ → ℕ → ℝ) (i j : ℕ) (hi1 : 1 ≤ i) (hi2 : i ≤ num_steps)
    (hj : j < num_sample_paths) :
    gridEntry (paths S T r sigma num_steps num_sample_paths Z) i j =
      gridEntry (paths S T r sigma num_steps num_sample_paths Z) (i - 1) j *
        Real.exp ((r - 0.5 * sigma ^ 2) * (T / (num_steps : ℝ)) +
          sigma * Real.sqrt (T / (num_steps : ℝ)) * Z i j) := by
  obtain ⟨k, rfl⟩ : ∃ k, i = k + 1 := ⟨i - 1, by omega⟩
  rw [paths_gridEntry S T r sigma num_steps num_sample_paths Z (k + 1) j
      hi2 hj,
    paths_gridEntry S T r sigma num_steps num_sample_paths Z ((k + 1) - 1) j
      (by omega) hj]
  simp [pathEntry, gbmStep]

theorem paths_recurrence_witness :
    gridEntry (paths 100 1 0.05 0.2 100 5 (fun _ _ => 0)) 1 0 =
      gridEntry (paths 100 1 0.05 0.2 100 5 (fun _ _ => 0)) (1 - 1) 0 *
        Real.exp ((0.05 - 0.5 * 0.2 ^ 2) * ((1 : ℝ) / ((100 : ℕ) : ℝ)) +
          0.2 * Real.sqrt ((1 : ℝ) / ((100 : ℕ) : ℝ)) *
            (fun _ _ => (0 : ℝ)) 1 0) :=
  paths_recurrence 100 1 0.05 0.2 100 5 (fun _ _ => 0) 1 0 (by norm_num)
    (by norm_num) (by norm_num)

/-- C6: for every `S > 0` and any real `r`, `sigma`, `T`, every entry of the
path grid is strictly positive: positivity is preserved by each step because
the update multiplies by a positive exponential, so the grid contains no
negative entries. -/
theorem paths_entries_pos (S T r sigma : ℝ) (num_steps num_sample_paths : ℕ)
    (Z : ℕ → ℕ → ℝ) (hS : 0 < S) (i j : ℕ) (hi : i ≤ num_steps)
    (hj : j < num_sample_paths) :
    0 < gridEntry (paths S T r sigma num_steps num_sample_paths Z) i j := by
  rw [paths_gridEntry S T r sigma num_steps num_sample_paths Z i j hi hj]
  exact pathEntry_pos S r sigma (T / (num_steps : ℝ)) Z hS i j

theorem paths_entries_pos_witness :
    0 < gridEntry (paths 100 1 0.05 0.2 100 5 (fun _ _ => 0)) 100 4 :=
  paths_entries_pos 100 1 0.05 0.2 100 5 (fun _ _ => 0) (by norm_num) 100 4
    (by norm_num) (by norm_num)

/-- C10: with the draws fixed, the call estimate is monotone nondecreasing in
the spot `S` and the put estimate is monotone nonincreasing in `S`: each
terminal sample is `S` times a positive factor independent of `S`, and the
payoffs are respectively nondecreasing and nonincreasing in the terminal
price. -/
theorem mc_monotone_in_spot (K T r sigma : ℝ) (Z : List ℝ) (S1 S2 : ℝ)
    (hS : S1 ≤ S2) :
    (monte_carlo_option_price S1 K T r sigma "call" Z).1 ≤
        (monte_carlo_option_price S2 K T r sigma "call" Z).1 ∧
    (monte_carlo_option_price S2 K T r sigma "put" Z).1 ≤
        (monte_carlo_option_price S1 K T r sigma "put" Z).1 := by
  have hterm : ∀ z, terminalPrice S1 T r sigma z ≤ terminalPrice S2 T r sigma z := by
    intro z
    unfold terminalPrice
    exact mul_le_mul_of_nonneg_right hS (Real.exp_nonneg _)
  have hprice : ∀ (S : ℝ) (o : String),
      (monte_carlo_option_price S K T r sigma o Z).1 =
        Real.exp (-r * T) *
          ((Z.map fun z => payoff K o (terminalPrice S T r sigma z)).sum /
            (Z.length : ℝ)) := by
    intro S o
    simp [monte_carlo_option_price, npMean, List.map_map, Function.comp_def]
  have key : ∀ f g : ℝ → ℝ, (∀ z ∈ Z, f z ≤ g z) →
      Real.exp (-r * T) * ((Z.map f).sum / (Z.length : ℝ)) ≤
        Real.exp (-r * T) * ((Z.map g).sum / (Z.length : ℝ)) := by
    intro f g h
    refine mul_le_mul_of_nonneg_left ?_ (Real.exp_nonneg _)
    rw [div_eq_mul_inv, div_eq_mul_inv]
    exact mul_le_mul_of_nonneg_right (sum_map_le_sum_map f g Z h)
      (inv_nonneg.mpr (Nat.cast_nonneg _))
  constructor
  · rw [hprice S1 "call", hprice S2 "call"]
    refine key _ _ fun z _ => ?_
    rw [payoff_call, payoff_call]
    exact max_le_max (sub_le_sub_right (hterm z) K) le_rfl
  · rw [hprice S2 "put", hprice S1 "put"]
    refine key _ _ fun z _ => ?_
    rw [payoff_put, payoff_put]
    exact max_le_max (sub_le_sub_left (hterm z) K) le_rfl

theorem mc_monotone_in_spot_witness :
    (monte_carlo_option_price 90 100 1 0.05 0.2 "call" [0]).1 ≤
        (monte_carlo_option_price 110 100 1 0.05 0.2 "call" [0]).1 ∧
    (monte_carlo_option_price 110 100 1 0.05 0.2 "put" [0]).1 ≤
        (monte_carlo_option_price 90 100 1 0.05 0.2 "put" [0]).1 :=
  mc_monotone_in_spot 100 1 0.05 0.2 [0] 90 110 (by norm_num)

/-- C8: `reset_parameters` restores exactly the literal defaults
`S = 100.0`, `K = 100.0`, `T = 1.0`, `r = 0.05`, `sigma = 0.2`,
`kind = "call"`, `N = 10000` under their session-state keys, and leaves every
other key of the session state unchanged. -/
theorem reset_parameters_defaults (st : SessionState) :
    (reset_parameters st "S_slider" = some (.real 100.0) ∧
      reset_parameters st "K_slider" = some (.real 100.0) ∧
      reset_parameters st "T_slider" = some (.real 1.0) ∧
      reset_parameters st "r_slider" = some (.real 0.05) ∧
      reset_parameters st "sigma_slider" = some (.real 0.2) ∧
      reset_parameters st "option_type_radio" = some (.str "call") ∧
      reset_parameters st "num_paths_slider" = some (.nat 10000)) ∧
    ∀ k, k ∉ ["S_slider", "K_slider", "T_slider", "r_slider", "sigma_slider",
        "option_type_radio", "num_paths_slider"] →
      reset_parameters st k = st k := by
  constructor
  · refine ⟨?_, ?_, ?_, ?_, ?_, ?_, ?_⟩ <;>
      simp [reset_parameters, SessionState.set]
  · intro k hk
    simp only [List.mem_cons, List.not_mem_nil, or_false] at hk
    push_neg at hk
    obtain ⟨h1, h2, h3, h4, h5, h6, h7⟩ := hk
    simp [reset_parameters, SessionState.set, h1, h2, h3, h4, h5, h6, h7]

theorem reset_parameters_defaults_witness :
    reset_parameters (fun _ => none) "S_slider" = some (.real 100.0) ∧
    reset_parameters (fun _ => none) "show_sample_paths" = none :=
  ⟨(reset_parameters_defaults (fun _ => none)).1.1,
    (reset_parameters_defaults (fun _ => none)).2 "show_sample_paths"
      (by simp)⟩

end
